import Mathlib

/-!
Verification development for the MACS quick-peak-calling excerpt.

The repository source under scrutiny is `MACS2/qcall_cmd.py` (the driver of
the quick peak calling command) together with `test/test_Signal.py` (the
repository's unit test for the signal-extrema helpers).  The algorithmic
components the driver calls (`MACS2.Signal.maxima`/`minima`, the pileup
builder `unified_pileup_bdg`, and `call_peaks` on the bedGraph track) are not
part of the excerpt, so they are modelled here from the specification's own
description of them (sections 4.1 to 4.4 of the design document); each such
definition carries a doc comment saying so.  The driver's arithmetic and
control flow are embedded directly from `qcall_cmd.py`.
-/

namespace MACSQ

/-! ## Signal extrema (spec section 4.4) -/

/-- Maximum of a list of integers, `0` for the empty list (only ever used on
nonempty windows). -/
def listMax : List ℤ → ℤ
  | [] => 0
  | x :: xs => xs.foldl max x

/-- Minimum of a list of integers, `0` for the empty list. -/
def listMin : List ℤ → ℤ
  | [] => 0
  | x :: xs => xs.foldl min x

/-- Modelled from the spec: the window `[i - w/2, i + w/2]` of the signal,
clipped (not padded) at both sequence ends.  `MACS2.Signal` is not part of
the source excerpt. -/
def window (sig : List ℤ) (w i : ℕ) : List ℤ :=
  (sig.drop (i - w / 2)).take (i + w / 2 + 1 - (i - w / 2))

/-- Modelled from the spec: position `i` qualifies as a candidate local
maximum when `sig[i]` equals the maximum of its clipped window. -/
def qualifiesMax (sig : List ℤ) (w i : ℕ) : Bool :=
  sig.getD i 0 == listMax (window sig w i)

/-- Modelled from the spec: the dual condition for candidate local minima. -/
def qualifiesMin (sig : List ℤ) (w i : ℕ) : Bool :=
  sig.getD i 0 == listMin (window sig w i)

/-- Helper of `collapse`: `s` is the start of the current contiguous run of
qualifying positions and `prev` its last element seen so far. -/
def collapseFrom (s prev : ℕ) : List ℕ → List ℕ
  | [] => [(s + prev) / 2]
  | q :: rest =>
      if q = prev + 1 then collapseFrom s q rest
      else (s + prev) / 2 :: collapseFrom q q rest

/-- Modelled from the spec: collapse each contiguous run of qualifying
positions to the floor of the arithmetic mean of the run's start and end
index. -/
def collapse : List ℕ → List ℕ
  | [] => []
  | p :: rest => collapseFrom p p rest

/-- Modelled from the spec: `maxima(signal, windowSize)`, the windowed local
maximum detector of `MACS2.Signal` (absent from the source excerpt). -/
def maxima (sig : List ℤ) (w : ℕ) : List ℕ :=
  collapse ((List.range sig.length).filter (qualifiesMax sig w))

/-- Modelled from the spec: `minima(signal, windowSize)`, symmetric with
inverted comparison. -/
def minima (sig : List ℤ) (w : ℕ) : List ℕ :=
  collapse ((List.range sig.length).filter (qualifiesMin sig w))

/-- The signal fixture of `test/test_Signal.py` (`Test_maxima.setUp`). -/
def testSignal : List ℤ :=
  List.replicate 40 0 ++ List.replicate 20 1 ++ List.replicate 10 2 ++
  List.replicate 5 3 ++ List.replicate 3 4 ++ List.replicate 2 5 ++
  List.replicate 3 4 ++ List.replicate 5 3 ++ List.replicate 10 2 ++
  List.replicate 10 1 ++ List.replicate 10 2 ++ List.replicate 5 3 ++
  List.replicate 3 4 ++ List.replicate 2 5 ++ List.replicate 3 4 ++
  List.replicate 5 3 ++ List.replicate 10 2 ++ List.replicate 20 1 ++
  List.replicate 40 0

/-! ## Coverage pileup (spec sections 4.1 and 4.2)

The pileup engine `unified_pileup_bdg` and the bedGraph track it produces are
not part of the source excerpt; they are modelled from the specification's
sweep-line description.  Intervals are half-open pairs `(start, stop)` of
naturals on a single chromosome; a track is a list of runs. -/

/-- A run of the run-length-encoded coverage track: half-open coordinate
range with a constant value. -/
structure Run where
  start : ℕ
  stop : ℕ
  value : ℚ
deriving DecidableEq

/-- Number of intervals whose start is exactly `c`. -/
def startsAt (ivs : List (ℕ × ℕ)) (c : ℕ) : ℕ :=
  (ivs.filter (fun iv => decide (iv.1 = c))).length

/-- Number of intervals whose end is exactly `c`. -/
def endsAt (ivs : List (ℕ × ℕ)) (c : ℕ) : ℕ :=
  (ivs.filter (fun iv => decide (iv.2 = c))).length

/-- Number of intervals whose start is at most `c`. -/
def startsLE (ivs : List (ℕ × ℕ)) (c : ℕ) : ℕ :=
  (ivs.filter (fun iv => decide (iv.1 ≤ c))).length

/-- Number of intervals whose end is at most `c`. -/
def endsLE (ivs : List (ℕ × ℕ)) (c : ℕ) : ℕ :=
  (ivs.filter (fun iv => decide (iv.2 ≤ c))).length

/-- Number of intervals whose start is strictly below `c`. -/
def startsLT (ivs : List (ℕ × ℕ)) (c : ℕ) : ℕ :=
  (ivs.filter (fun iv => decide (iv.1 < c))).length

/-- Number of intervals whose end is strictly below `c`. -/
def endsLT (ivs : List (ℕ × ℕ)) (c : ℕ) : ℕ :=
  (ivs.filter (fun iv => decide (iv.2 < c))).length

/-- The number of input intervals that contain position `p` (the spec's
wording in section 8: the brute-force per-position counter). -/
def coverCount (ivs : List (ℕ × ℕ)) (p : ℕ) : ℕ :=
  (ivs.filter (fun iv => decide (iv.1 ≤ p) && decide (p < iv.2))).length

/-- The set of delta-event coordinates: every interval start and end. -/
def boundarySet (ivs : List (ℕ × ℕ)) : Finset ℕ :=
  (ivs.map Prod.fst).toFinset ∪ (ivs.map Prod.snd).toFinset

/-- Modelled from the spec: the sorted event coordinates of the sweep. -/
def boundaries (ivs : List (ℕ × ℕ)) : List ℕ :=
  (boundarySet ivs).sort (· ≤ ·)

/-- Modelled from the spec: the sweep-line of section 4.1.  `d` is the
running depth counter; at each event coordinate the previous run is closed
and a new one is opened with the updated depth (all events sharing one
coordinate are applied together, which is what the start-before-end tie
order achieves). -/
def sweep (ivs : List (ℕ × ℕ)) : ℚ → List ℕ → List Run
  | _, [] => []
  | _, [_] => []
  | d, c0 :: c1 :: rest =>
      let d2 := d + (startsAt ivs c0 : ℚ) - (endsAt ivs c0 : ℚ)
      ⟨c0, c1, d2⟩ :: sweep ivs d2 (c1 :: rest)

/-- Modelled from the spec: maximal run-length compression (the data-model
invariant of section 3); adjacent runs with equal values are merged, as the
bedGraph store does when runs are appended. -/
def compress : List Run → List Run
  | r1 :: r2 :: rest =>
      if r1.value = r2.value then compress (⟨r1.start, r2.stop, r1.value⟩ :: rest)
      else r1 :: compress (r2 :: rest)
  | l => l
termination_by l => l.length

/-- Modelled from the spec: the coverage track built from a set of intervals
on one chromosome (pileup with scale 1). -/
def pileup (ivs : List (ℕ × ℕ)) : List Run :=
  compress (sweep ivs 0 (boundaries ivs))

/-- Modelled from the spec: `CoverageTrack.valueAt` — the value of the run
containing `p`, `0` when no run does (gaps are implicit zero runs). -/
def valueAt (rs : List Run) (p : ℕ) : ℚ :=
  match rs.find? (fun r => decide (r.start ≤ p) && decide (p < r.stop)) with
  | some r => r.value
  | none => 0

/-- Modelled from the spec: `CoverageTrack.totalWeightedLength`, the sum of
`run.length * run.value` over the track. -/
def weightedTotal (rs : List Run) : ℚ :=
  (rs.map (fun r => ((r.stop - r.start : ℕ) : ℚ) * r.value)).sum

/-- Sum of the lengths of a list of half-open intervals. -/
def totalIntervalLength (ivs : List (ℕ × ℕ)) : ℕ :=
  (ivs.map (fun iv => iv.2 - iv.1)).sum

/-! ## Peak caller (spec section 4.3)

`call_peaks` on the bedGraph track is not part of the source excerpt; it is
modelled from the five steps of section 4.3.  Summit splitting (section 4.5)
is never requested by the driver (`call_summits=False` in `qcall_cmd.py`),
so the `splitSummits` flag selects the same single-summit closing. -/

/-- A summit of a peak. -/
structure Summit where
  pos : ℕ
  val : ℚ
deriving DecidableEq

/-- A called peak: half-open span, score, and its summits. -/
structure Peak where
  start : ℕ
  stop : ℕ
  score : ℚ
  summits : List Summit
deriving DecidableEq

/-- Whether a run's value is strictly above the cutoff (spec step 1). -/
def aboveCutoff (cutoff : ℚ) (r : Run) : Bool :=
  decide (cutoff < r.value)

/-- Modelled from the spec: step 1 — maximal contiguous spans of runs whose
value is above the cutoff, each candidate kept as its list of qualifying
runs.  A qualifying run followed by another qualifying run joins the group
the latter opens. -/
def candidates (cutoff : ℚ) : List Run → List (List Run)
  | [] => []
  | [r] => if aboveCutoff cutoff r then [[r]] else []
  | r :: r2 :: rest =>
      if aboveCutoff cutoff r then
        if aboveCutoff cutoff r2 then
          match candidates cutoff (r2 :: rest) with
          | g :: gs => (r :: g) :: gs
          | [] => [[r]]
        else [r] :: candidates cutoff (r2 :: rest)
      else candidates cutoff (r2 :: rest)

/-- Start coordinate of a candidate (start of its first run). -/
def cStart (c : List Run) : ℕ :=
  match c.head? with
  | some r => r.start
  | none => 0

/-- Stop coordinate of a candidate (stop of its last run). -/
def cStop (c : List Run) : ℕ :=
  match c.getLast? with
  | some r => r.stop
  | none => 0

/-- Modelled from the spec: step 2 — merge consecutive candidates whose
separating sub-cutoff gap is at most `maxGap`; the merged candidate's span
is the union (hull) of the two coordinate ranges.  Merging a candidate with
its right neighbour changes neither its own start nor the neighbour's stop,
so the adjacent-gap decisions are independent and the scan can fold from
the right. -/
def mergeCands (maxGap : ℕ) : List (List Run) → List (List Run)
  | [] => []
  | [c] => [c]
  | c1 :: c2 :: rest =>
      match mergeCands maxGap (c2 :: rest) with
      | [] => [c1]
      | g :: gs =>
          if cStart g - cStop c1 ≤ maxGap then (c1 ++ g) :: gs
          else c1 :: g :: gs

/-- Maximum value observed over a candidate's runs (spec step 4). -/
def candMax : List Run → ℚ
  | [] => 0
  | r :: rest => (rest.map Run.value).foldl max r.value

/-- The first run of the candidate attaining the maximum value. -/
def summitRun (c : List Run) : Run :=
  match c.find? (fun r => decide (r.value = candMax c)) with
  | some r => r
  | none => ⟨0, 0, 0⟩

/-- Modelled from the spec: the single-summit position — the floor midpoint
of the maximal-value plateau (positions `start .. stop - 1` of the
maximal run), per the collapsing rule of section 4.4. -/
def summitPos (c : List Run) : ℕ :=
  ((summitRun c).start + ((summitRun c).stop - 1)) / 2

/-- Modelled from the spec: steps 4 and 5 — close a surviving candidate into
a Peak scored by its maximum value, with a single summit. -/
def closeCand (c : List Run) : Peak :=
  ⟨cStart c, cStop c, candMax c, [⟨summitPos c, candMax c⟩]⟩

/-- Modelled from the spec: `callPeaks(track, cutoff, minLength, maxGap,
splitSummits)` of section 4.3 (summit splitting of section 4.5 is not
exercised by the driver, which always passes `call_summits=False`). -/
def callPeaks (rs : List Run) (cutoff : ℚ) (minLength maxGap : ℕ)
    (splitSummits : Bool) : List Peak :=
  ((mergeCands maxGap (candidates cutoff rs)).filter
      (fun c => decide (minLength ≤ cStop c - cStart c))).map closeCand

/-- The error taxonomy entry relevant here (spec section 7). -/
inductive QError where
  | invalidArgument
deriving DecidableEq

/-- Whether a track is well formed: runs sorted, non-overlapping, each with
positive length. -/
def sortedDisjoint : List Run → Bool
  | [] => true
  | [r] => decide (r.start < r.stop)
  | r1 :: r2 :: rest =>
      decide (r1.start < r1.stop) && decide (r1.stop ≤ r2.start) &&
        sortedDisjoint (r2 :: rest)

/-- Modelled from the spec: the failure behavior of section 4.3 — a
non-positive cutoff, a zero `minLength`, or a malformed track is signaled as
an `InvalidArgument` error with no partial result; otherwise the peaks are
returned. -/
def callPeaksChecked (rs : List Run) (cutoff : ℚ) (minLength maxGap : ℕ)
    (splitSummits : Bool) : Except QError (List Peak) :=
  if cutoff ≤ 0 then Except.error QError.invalidArgument
  else if minLength = 0 then Except.error QError.invalidArgument
  else if sortedDisjoint rs = false then Except.error QError.invalidArgument
  else Except.ok (callPeaks rs cutoff minLength maxGap splitSummits)

/-! ## The driver `run` of `qcall_cmd.py` (embedded from the source)

The loaders (`options.parser`) are external; a parsed input file is
abstracted by the three scalars the driver reads from it: the predicted
fragment size `tp.d`, the tag size `tp.tsize()`, and the number of
fragments/tags it contributes to `treat.total`. -/

/-- The option fields of `qcall_cmd.run` that feed the computation. -/
structure Options where
  format : String
  extsize : ℕ
  gsize : ℕ
  cutoff : ℚ
  minlen : ℕ
  maxgap : ℕ

/-- Abstraction of one parsed input file. -/
structure ParsedFile where
  d : ℕ
  tsizeVal : ℕ
  total : ℕ

/-- The arguments `run` passes to `unified_pileup_bdg`. -/
structure PileupCall where
  extension : Option ℕ
  scale : ℚ
  halfextension : Bool
deriving DecidableEq

/-- The arguments `run` passes to `call_peaks`. -/
structure PeaksCall where
  cutoff : ℚ
  minLength : ℕ
  maxGap : ℕ
  callSummits : Bool
deriving DecidableEq

/-- Everything observable about one execution of `run`: the two calls it
issues, the extension size used in the background estimate, and the total
fragment/tag count. -/
structure RunTrace where
  pileupArgs : PileupCall
  peaksArgs : PeaksCall
  bgExtsize : ℕ
  totalCount : ℕ
deriving DecidableEq

/-- Embedded from `qcall_cmd.py` line 41: paired-end mode selection. -/
def peMode (o : Options) : Bool :=
  o.format == "BAMPE" || o.format == "BEDPE"

/-- Embedded from `load_frag_files_options`: the fragment tracks of all
input files are appended; the returned fragment size is `tp.d` of the FIRST
parser only (set before the loop over the remaining files). -/
def load_frag_files_options (first : ParsedFile) (rest : List ParsedFile) : ℕ × ℕ :=
  (first.total + (rest.map ParsedFile.total).sum, first.d)

/-- Embedded from `load_tag_files_options`: tag tracks appended; the tag
size comes from the first parser. -/
def load_tag_files_options (first : ParsedFile) (rest : List ParsedFile) : ℕ × ℕ :=
  (first.total + (rest.map ParsedFile.total).sum, first.tsizeVal)

/-- Embedded from `qcall_cmd.py` line 63: `genome_bg = extsize * t0 /
options.gsize`, Python true division embedded as exact rational division. -/
def genomeBG (extsize t0 gsize : ℕ) : ℚ :=
  ((extsize * t0 : ℕ) : ℚ) / (gsize : ℚ)

/-- Modelled from the spec (section 6): `cutoff = foldEnrichment *
(extensionSize * totalFragmentCount / effectiveGenomeSize)`, stated
independently of the driver embedding for comparison with it. -/
def specCutoff (foldEnrichment : ℚ)
    (extensionSize totalFragmentCount effectiveGenomeSize : ℕ) : ℚ :=
  foldEnrichment *
    (((extensionSize * totalFragmentCount : ℕ) : ℚ) / (effectiveGenomeSize : ℚ))

/-- Embedded from `qcall_cmd.run` lines 41 to 68: mode selection, loading,
the pileup call, the background estimate, and the `call_peaks` call. -/
def runTrace (o : Options) (first : ParsedFile) (rest : List ParsedFile) : RunTrace :=
  if peMode o then
    let t0 := (load_frag_files_options first rest).1
    let extsize := (load_frag_files_options first rest).2
    ⟨⟨none, 1, false⟩,
      ⟨o.cutoff * genomeBG extsize t0 o.gsize, o.minlen, o.maxgap, false⟩,
      extsize, t0⟩
  else
    let t0 := (load_tag_files_options first rest).1
    let extsize := o.extsize
    ⟨⟨some o.extsize, 1, false⟩,
      ⟨o.cutoff * genomeBG extsize t0 o.gsize, o.minlen, o.maxgap, false⟩,
      extsize, t0⟩

end MACSQ

namespace MACSQ

set_option maxRecDepth 100000

/-! ## Counting lemmas -/

theorem startsLE_split (ivs : List (ℕ × ℕ)) (c : ℕ) :
    startsLE ivs c = startsLT ivs c + startsAt ivs c := by
  induction ivs with
  | nil => rfl
  | cons iv t ih =>
      simp only [startsLE, startsLT, startsAt, List.filter_cons] at ih ⊢
      by_cases h1 : iv.1 ≤ c <;> by_cases h2 : iv.1 < c <;> by_cases h3 : iv.1 = c <;>
        simp [h1, h2, h3] <;> omega

theorem endsLE_split (ivs : List (ℕ × ℕ)) (c : ℕ) :
    endsLE ivs c = endsLT ivs c + endsAt ivs c := by
  induction ivs with
  | nil => rfl
  | cons iv t ih =>
      simp only [endsLE, endsLT, endsAt, List.filter_cons] at ih ⊢
      by_cases h1 : iv.2 ≤ c <;> by_cases h2 : iv.2 < c <;> by_cases h3 : iv.2 = c <;>
        simp [h1, h2, h3] <;> omega

theorem startsLE_eq_endsLE_add_coverCount (ivs : List (ℕ × ℕ))
    (hiv : ∀ iv ∈ ivs, iv.1 < iv.2) (p : ℕ) :
    startsLE ivs p = endsLE ivs p + coverCount ivs p := by
  induction ivs with
  | nil => rfl
  | cons iv t ih =>
      have hh : iv.1 < iv.2 := hiv iv (List.mem_cons_self iv t)
      have ih' := ih (fun x hx => hiv x (List.mem_cons_of_mem iv hx))
      simp only [startsLE, endsLE, coverCount, List.filter_cons] at ih' ⊢
      by_cases h1 : iv.1 ≤ p <;> by_cases h2 : iv.2 ≤ p <;> by_cases h3 : p < iv.2 <;>
        simp [h1, h2, h3] <;> omega

/-! ## valueAt lemmas -/

theorem valueAt_nil (p : ℕ) : valueAt [] p = 0 := rfl

theorem valueAt_cons (r : Run) (rs : List Run) (p : ℕ) :
    valueAt (r :: rs) p =
      if r.start ≤ p ∧ p < r.stop then r.value else valueAt rs p := by
  unfold valueAt
  by_cases h : r.start ≤ p ∧ p < r.stop
  · rw [List.find?_cons_of_pos _ (by simpa using h)]
    simp [h]
  · rw [List.find?_cons_of_neg _ (by simpa using h)]
    simp [h]

theorem valueAt_eq_zero (rs : List Run) (p : ℕ)
    (h : ∀ r ∈ rs, ¬(r.start ≤ p ∧ p < r.stop)) : valueAt rs p = 0 := by
  induction rs with
  | nil => rfl
  | cons r t ih =>
      rw [valueAt_cons, if_neg (h r (List.mem_cons_self r t))]
      exact ih fun x hx => h x (List.mem_cons_of_mem r hx)

/-! ## Sweep structural lemmas -/

theorem mem_sweep (ivs : List (ℕ × ℕ)) :
    ∀ (cs : List ℕ) (d : ℚ) (r : Run), r ∈ sweep ivs d cs →
      r.start ∈ cs ∧ r.stop ∈ cs := by
  intro cs
  induction cs with
  | nil => intro d r hr; simp [sweep] at hr
  | cons c0 rest ih =>
      intro d r hr
      cases rest with
      | nil => simp [sweep] at hr
      | cons c1 rest' =>
          rw [sweep] at hr
          rcases List.mem_cons.mp hr with rfl | hr'
          · exact ⟨List.mem_cons_self _ _, List.mem_cons_of_mem _ (List.mem_cons_self _ _)⟩
          · rcases ih _ r hr' with ⟨h1, h2⟩
            exact ⟨List.mem_cons_of_mem _ h1, List.mem_cons_of_mem _ h2⟩

theorem sweep_pos (ivs : List (ℕ × ℕ)) :
    ∀ (cs : List ℕ) (d : ℚ), List.Pairwise (· < ·) cs →
      ∀ r ∈ sweep ivs d cs, r.start < r.stop := by
  intro cs
  induction cs with
  | nil => intro d _ r hr; simp [sweep] at hr
  | cons c0 rest ih =>
      intro d hcs r hr
      cases rest with
      | nil => simp [sweep] at hr
      | cons c1 rest' =>
          rw [sweep] at hr
          rcases List.mem_cons.mp hr with rfl | hr'
          · exact (List.pairwise_cons.mp hcs).1 c1 (List.mem_cons_self _ _)
          · exact ih _ (List.pairwise_cons.mp hcs).2 r hr'

theorem sweep_contig (ivs : List (ℕ × ℕ)) :
    ∀ (cs : List ℕ) (d : ℚ),
      List.Chain' (fun a b => a.stop = b.start) (sweep ivs d cs) := by
  intro cs
  induction cs with
  | nil => intro d; simp [sweep]
  | cons c0 rest ih =>
      intro d
      cases rest with
      | nil => simp [sweep]
      | cons c1 rest' =>
          rw [sweep]
          refine List.chain'_cons'.mpr ⟨?_, ih _⟩
          intro h hh
          cases rest' with
          | nil => simp [sweep] at hh
          | cons c2 rest'' =>
              rw [sweep] at hh
              simp only [List.head?_cons, Option.mem_def, Option.some.injEq] at hh
              subst hh
              rfl

theorem pairwise_head_le {c1 : ℕ} {l : List ℕ} (h : List.Pairwise (· < ·) (c1 :: l))
    {b : ℕ} (hb : b ∈ c1 :: l) : c1 ≤ b := by
  rcases List.mem_cons.mp hb with rfl | hb'
  · exact le_refl b
  · exact le_of_lt ((List.pairwise_cons.mp h).1 b hb')

/-- The value the sweep assigns to the run containing `p` is the number of
intervals containing `p`, provided the coordinate list is the (suffix of the)
sorted event list and the entry depth is the depth just below its head. -/
theorem sweep_valueAt (ivs : List (ℕ × ℕ)) (hiv : ∀ iv ∈ ivs, iv.1 < iv.2) :
    ∀ (cs : List ℕ) (d : ℚ),
      List.Pairwise (· < ·) cs →
      (∀ iv ∈ ivs, (iv.1 ∈ cs ∨ ∀ c ∈ cs, iv.1 < c) ∧
        (iv.2 ∈ cs ∨ ∀ c ∈ cs, iv.2 < c)) →
      (∀ cc, cs.head? = some cc →
        d = (startsLT ivs cc : ℚ) - (endsLT ivs cc : ℚ)) →
      ∀ p cc cz, cs.head? = some cc → cc ≤ p → cz ∈ cs → p < cz →
        valueAt (sweep ivs d cs) p = (coverCount ivs p : ℚ) := by
  intro cs
  induction cs with
  | nil =>
      intro d _ _ _ p cc cz h0
      simp at h0
  | cons c0 rest ih =>
      intro d hpw hbd hd p cc cz hhead hccp hcz hpcz
      simp only [List.head?_cons, Option.some.injEq] at hhead
      subst hhead
      cases rest with
      | nil =>
          rcases List.mem_cons.mp hcz with rfl | h
          · omega
          · simp at h
      | cons c1 rest' =>
          have hpw1 : ∀ b ∈ c1 :: rest', c0 < b := (List.pairwise_cons.mp hpw).1
          have hpwt : List.Pairwise (· < ·) (c1 :: rest') := (List.pairwise_cons.mp hpw).2
          have hc01 : c0 < c1 := hpw1 c1 (List.mem_cons_self _ _)
          have hd0 : d = (startsLT ivs c0 : ℚ) - (endsLT ivs c0 : ℚ) := hd c0 rfl
          have hd2 : d + (startsAt ivs c0 : ℚ) - (endsAt ivs c0 : ℚ) =
              (startsLE ivs c0 : ℚ) - (endsLE ivs c0 : ℚ) := by
            rw [hd0, startsLE_split ivs c0, endsLE_split ivs c0]
            push_cast
            ring
          rw [sweep]
          by_cases hp : p < c1
          · -- p lies in the first run
            rw [valueAt_cons, if_pos ⟨hccp, hp⟩]
            have hsp : startsLE ivs c0 = startsLE ivs p := by
              unfold startsLE
              congr 1
              apply List.filter_congr
              intro iv hmem
              apply decide_eq_decide.mpr
              constructor
              · intro h; exact le_trans h hccp
              · intro h
                by_contra hno
                push_neg at hno
                rcases (hbd iv hmem).1 with hin | hlt
                · rcases List.mem_cons.mp hin with he | hin'
                  · omega
                  · have := pairwise_head_le hpwt hin'
                    omega
                · have := hlt c0 (List.mem_cons_self _ _)
                  omega
            have hep : endsLE ivs c0 = endsLE ivs p := by
              unfold endsLE
              congr 1
              apply List.filter_congr
              intro iv hmem
              apply decide_eq_decide.mpr
              constructor
              · intro h; exact le_trans h hccp
              · intro h
                by_contra hno
                push_neg at hno
                rcases (hbd iv hmem).2 with hin | hlt
                · rcases List.mem_cons.mp hin with he | hin'
                  · omega
                  · have := pairwise_head_le hpwt hin'
                    omega
                · have := hlt c0 (List.mem_cons_self _ _)
                  omega
            have hcc' := startsLE_eq_endsLE_add_coverCount ivs hiv p
            rw [hd2, hsp, hep, hcc']
            push_cast
            ring
          · -- p lies beyond the first run: recurse
            rw [valueAt_cons, if_neg (fun hcon => hp hcon.2)]
            have hc1p : c1 ≤ p := le_of_not_lt hp
            have hbd' : ∀ iv ∈ ivs, (iv.1 ∈ c1 :: rest' ∨ ∀ c ∈ c1 :: rest', iv.1 < c) ∧
                (iv.2 ∈ c1 :: rest' ∨ ∀ c ∈ c1 :: rest', iv.2 < c) := by
              intro iv hmem
              rcases hbd iv hmem with ⟨hb1, hb2⟩
              constructor
              · rcases hb1 with hin | hlt
                · rcases List.mem_cons.mp hin with he | hin'
                  · right; intro c hc; rw [he]; exact hpw1 c hc
                  · left; exact hin'
                · right; intro c hc; exact hlt c (List.mem_cons_of_mem _ hc)
              · rcases hb2 with hin | hlt
                · rcases List.mem_cons.mp hin with he | hin'
                  · right; intro c hc; rw [he]; exact hpw1 c hc
                  · left; exact hin'
                · right; intro c hc; exact hlt c (List.mem_cons_of_mem _ hc)
            have hd' : ∀ cc', (c1 :: rest').head? = some cc' →
                d + (startsAt ivs c0 : ℚ) - (endsAt ivs c0 : ℚ) =
                  (startsLT ivs cc' : ℚ) - (endsLT ivs cc' : ℚ) := by
              intro cc' hcc'
              simp only [List.head?_cons, Option.some.injEq] at hcc'
              subst hcc'
              have hs1 : startsLE ivs c0 = startsLT ivs c1 := by
                unfold startsLE startsLT
                congr 1
                apply List.filter_congr
                intro iv hmem
                apply decide_eq_decide.mpr
                constructor
                · intro h; omega
                · intro h
                  by_contra hno
                  push_neg at hno
                  rcases (hbd iv hmem).1 with hin | hlt
                  · rcases List.mem_cons.mp hin with he | hin'
                    · omega
                    · have := pairwise_head_le hpwt hin'
                      omega
                  · have := hlt c0 (List.mem_cons_self _ _)
                    omega
              have he1 : endsLE ivs c0 = endsLT ivs c1 := by
                unfold endsLE endsLT
                congr 1
                apply List.filter_congr
                intro iv hmem
                apply decide_eq_decide.mpr
                constructor
                · intro h; omega
                · intro h
                  by_contra hno
                  push_neg at hno
                  rcases (hbd iv hmem).2 with hin | hlt
                  · rcases List.mem_cons.mp hin with he | hin'
                    · omega
                    · have := pairwise_head_le hpwt hin'
                      omega
                  · have := hlt c0 (List.mem_cons_self _ _)
                    omega
              rw [hd2, hs1, he1]
            have hcz' : cz ∈ c1 :: rest' := by
              rcases List.mem_cons.mp hcz with rfl | h
              · omega
              · exact h
            exact ih _ hpwt hbd' hd' p c1 cz rfl hc1p hcz' hpcz

/-! ## Compression lemmas -/

theorem compress_of_short (l : List Run)
    (h : ∀ (r1 r2 : Run) (rest : List Run), l = r1 :: r2 :: rest → False) :
    compress l = l := by
  cases l with
  | nil => simp [compress]
  | cons a t =>
      cases t with
      | nil => simp [compress]
      | cons b t' => exact absurd rfl (h a b t')

theorem compress_head (rs : List Run) :
    (compress rs).head?.map Run.start = rs.head?.map Run.start ∧
      (compress rs).head?.map Run.value = rs.head?.map Run.value := by
  induction rs using compress.induct with
  | case1 r1 r2 rest heq ih =>
      rw [compress, if_pos heq]
      simpa using ih
  | case2 r1 r2 rest hne ih =>
      rw [compress, if_neg hne]
      simp
  | case3 l h =>
      rw [compress_of_short l h]
      exact ⟨rfl, rfl⟩

theorem compress_valueAt (rs : List Run) :
    List.Chain' (fun a b => a.stop = b.start) rs →
    (∀ r ∈ rs, r.start ≤ r.stop) →
    ∀ p, valueAt (compress rs) p = valueAt rs p := by
  induction rs using compress.induct with
  | case1 r1 r2 rest heq ih =>
      intro hch hpos p
      have h12 : r1.stop = r2.start := (List.chain'_cons.mp hch).1
      have hch2 : List.Chain' (fun a b => a.stop = b.start) (r2 :: rest) :=
        (List.chain'_cons.mp hch).2
      have hp1 : r1.start ≤ r1.stop := hpos r1 (List.mem_cons_self _ _)
      have hp2 : r2.start ≤ r2.stop := hpos r2 (List.mem_cons_of_mem _ (List.mem_cons_self _ _))
      have hchm : List.Chain' (fun a b => a.stop = b.start)
          ((⟨r1.start, r2.stop, r1.value⟩ : Run) :: rest) :=
        List.chain'_cons'.mpr ⟨fun h hh => (List.chain'_cons'.mp hch2).1 h hh,
          (List.chain'_cons'.mp hch2).2⟩
      have hposm : ∀ r ∈ (⟨r1.start, r2.stop, r1.value⟩ : Run) :: rest,
          r.start ≤ r.stop := by
        intro r hr
        rcases List.mem_cons.mp hr with rfl | hr'
        · show r1.start ≤ r2.stop
          omega
        · exact hpos r (List.mem_cons_of_mem _ (List.mem_cons_of_mem _ hr'))
      rw [compress, if_pos heq, ih hchm hposm p]
      rw [valueAt_cons, valueAt_cons, valueAt_cons]
      dsimp only
      split_ifs with h1 h2 h3 <;> first | rfl | exact heq | omega
  | case2 r1 r2 rest hne ih =>
      intro hch hpos p
      have hch2 : List.Chain' (fun a b => a.stop = b.start) (r2 :: rest) :=
        (List.chain'_cons.mp hch).2
      rw [compress, if_neg hne, valueAt_cons, valueAt_cons]
      by_cases h1 : r1.start ≤ p ∧ p < r1.stop
      · rw [if_pos h1, if_pos h1]
      · rw [if_neg h1, if_neg h1]
        exact ih hch2 (fun r hr => hpos r (List.mem_cons_of_mem _ hr)) p
  | case3 l h =>
      intro _ _ p
      rw [compress_of_short l h]

theorem compress_contig_pos (rs : List Run) :
    List.Chain' (fun a b => a.stop = b.start) rs →
    (∀ r ∈ rs, r.start < r.stop) →
    List.Chain' (fun a b => a.stop = b.start) (compress rs) ∧
      ∀ r ∈ compress rs, r.start < r.stop := by
  induction rs using compress.induct with
  | case1 r1 r2 rest heq ih =>
      intro hch hpos
      have h12 : r1.stop = r2.start := (List.chain'_cons.mp hch).1
      have hch2 : List.Chain' (fun a b => a.stop = b.start) (r2 :: rest) :=
        (List.chain'_cons.mp hch).2
      have hp1 : r1.start < r1.stop := hpos r1 (List.mem_cons_self _ _)
      have hp2 : r2.start < r2.stop := hpos r2 (List.mem_cons_of_mem _ (List.mem_cons_self _ _))
      have hchm : List.Chain' (fun a b => a.stop = b.start)
          ((⟨r1.start, r2.stop, r1.value⟩ : Run) :: rest) :=
        List.chain'_cons'.mpr ⟨fun h hh => (List.chain'_cons'.mp hch2).1 h hh,
          (List.chain'_cons'.mp hch2).2⟩
      have hposm : ∀ r ∈ (⟨r1.start, r2.stop, r1.value⟩ : Run) :: rest,
          r.start < r.stop := by
        intro r hr
        rcases List.mem_cons.mp hr with rfl | hr'
        · show r1.start < r2.stop
          omega
        · exact hpos r (List.mem_cons_of_mem _ (List.mem_cons_of_mem _ hr'))
      rw [compress, if_pos heq]
      exact ih hchm hposm
  | case2 r1 r2 rest hne ih =>
      intro hch hpos
      have h12 : r1.stop = r2.start := (List.chain'_cons.mp hch).1
      have hch2 : List.Chain' (fun a b => a.stop = b.start) (r2 :: rest) :=
        (List.chain'_cons.mp hch).2
      have hrec := ih hch2 (fun r hr => hpos r (List.mem_cons_of_mem _ hr))
      rw [compress, if_neg hne]
      constructor
      · refine List.chain'_cons'.mpr ⟨?_, hrec.1⟩
        intro h hh
        have hs : (compress (r2 :: rest)).head?.map Run.start =
            ((r2 :: rest).head?).map Run.start := (compress_head (r2 :: rest)).1
        rw [Option.mem_def] at hh
        rw [hh] at hs
        simp only [List.head?_cons, Option.map_some'] at hs
        have : h.start = r2.start := by injection hs
        rw [this]
        exact h12
      · intro r hr
        rcases List.mem_cons.mp hr with rfl | hr'
        · exact hpos r (List.mem_cons_self _ _)
        · exact hrec.2 r hr'
  | case3 l h =>
      intro hch hpos
      rw [compress_of_short l h]
      exact ⟨hch, hpos⟩

theorem compress_value_ne (rs : List Run) :
    List.Chain' (fun a b => a.value ≠ b.value) (compress rs) := by
  induction rs using compress.induct with
  | case1 r1 r2 rest heq ih =>
      rw [compress, if_pos heq]
      exact ih
  | case2 r1 r2 rest hne ih =>
      rw [compress, if_neg hne]
      refine List.chain'_cons'.mpr ⟨?_, ih⟩
      intro h hh
      have hs : (compress (r2 :: rest)).head?.map Run.value =
          ((r2 :: rest).head?).map Run.value := (compress_head (r2 :: rest)).2
      rw [Option.mem_def] at hh
      rw [hh] at hs
      simp only [List.head?_cons, Option.map_some'] at hs
      have : h.value = r2.value := by injection hs
      rw [this]
      exact hne
  | case3 l h =>
      rw [compress_of_short l h]
      cases l with
      | nil => simp
      | cons a t =>
          cases t with
          | nil => simp
          | cons b t' => exact absurd rfl (h a b t')

theorem weightedTotal_cons (r : Run) (rs : List Run) :
    weightedTotal (r :: rs) =
      ((r.stop - r.start : ℕ) : ℚ) * r.value + weightedTotal rs := by
  simp [weightedTotal]

theorem compress_weightedTotal (rs : List Run) :
    List.Chain' (fun a b => a.stop = b.start) rs →
    (∀ r ∈ rs, r.start ≤ r.stop) →
    weightedTotal (compress rs) = weightedTotal rs := by
  induction rs using compress.induct with
  | case1 r1 r2 rest heq ih =>
      intro hch hpos
      have h12 : r1.stop = r2.start := (List.chain'_cons.mp hch).1
      have hch2 : List.Chain' (fun a b => a.stop = b.start) (r2 :: rest) :=
        (List.chain'_cons.mp hch).2
      have hp1 : r1.start ≤ r1.stop := hpos r1 (List.mem_cons_self _ _)
      have hp2 : r2.start ≤ r2.stop := hpos r2 (List.mem_cons_of_mem _ (List.mem_cons_self _ _))
      have hchm : List.Chain' (fun a b => a.stop = b.start)
          ((⟨r1.start, r2.stop, r1.value⟩ : Run) :: rest) :=
        List.chain'_cons'.mpr ⟨fun h hh => (List.chain'_cons'.mp hch2).1 h hh,
          (List.chain'_cons'.mp hch2).2⟩
      have hposm : ∀ r ∈ (⟨r1.start, r2.stop, r1.value⟩ : Run) :: rest,
          r.start ≤ r.stop := by
        intro r hr
        rcases List.mem_cons.mp hr with rfl | hr'
        · show r1.start ≤ r2.stop
          omega
        · exact hpos r (List.mem_cons_of_mem _ (List.mem_cons_of_mem _ hr'))
      rw [compress, if_pos heq, ih hchm hposm]
      rw [weightedTotal_cons, weightedTotal_cons, weightedTotal_cons]
      dsimp only
      have hnat : r2.stop - r1.start = (r1.stop - r1.start) + (r2.stop - r2.start) := by
        omega
      rw [hnat, ← heq]
      push_cast
      ring
  | case2 r1 r2 rest hne ih =>
      intro hch hpos
      have hch2 : List.Chain' (fun a b => a.stop = b.start) (r2 :: rest) :=
        (List.chain'_cons.mp hch).2
      rw [compress, if_neg hne, weightedTotal_cons, weightedTotal_cons]
      rw [ih hch2 (fun r hr => hpos r (List.mem_cons_of_mem _ hr))]
  | case3 l h =>
      intro _ _
      rw [compress_of_short l h]

/-! ## Disjointness and summation lemmas -/

theorem chain_stop_le_of_contig (t : List Run) :
    ∀ (x : Run), List.Chain' (fun a b => a.stop = b.start) (x :: t) →
      (∀ r ∈ x :: t, r.start ≤ r.stop) →
      ∀ b ∈ t, x.stop ≤ b.start := by
  induction t with
  | nil => intro x _ _ b hb; simp at hb
  | cons y t' ih =>
      intro x hch hpos b hb
      have hxy : x.stop = y.start := (List.chain'_cons.mp hch).1
      rcases List.mem_cons.mp hb with rfl | hb'
      · exact le_of_eq hxy
      · have hy := ih y (List.chain'_cons.mp hch).2
          (fun r hr => hpos r (List.mem_cons_of_mem _ hr)) b hb'
        have hyp : y.start ≤ y.stop :=
          hpos y (List.mem_cons_of_mem _ (List.mem_cons_self _ _))
        omega

theorem pairwise_disjoint_of_contig (rs : List Run) :
    List.Chain' (fun a b => a.stop = b.start) rs →
    (∀ r ∈ rs, r.start ≤ r.stop) →
    List.Pairwise (fun a b => a.stop ≤ b.start) rs := by
  induction rs with
  | nil => intro _ _; simp
  | cons r t ih =>
      intro hch hpos
      refine List.pairwise_cons.mpr ⟨chain_stop_le_of_contig t r hch hpos, ?_⟩
      exact ih (List.chain'_cons'.mp hch).2 (fun x hx => hpos x (List.mem_cons_of_mem _ hx))

theorem chain_start_lt_of_contig (rs : List Run) :
    List.Chain' (fun a b => a.stop = b.start) rs →
    (∀ r ∈ rs, r.start < r.stop) →
    List.Chain' (fun a b => a.start < b.start) rs := by
  induction rs with
  | nil => intro _ _; simp
  | cons r t ih =>
      intro hch hpos
      refine List.chain'_cons'.mpr ⟨?_, ih (List.chain'_cons'.mp hch).2
        (fun x hx => hpos x (List.mem_cons_of_mem _ hx))⟩
      intro h hh
      have := (List.chain'_cons'.mp hch).1 h hh
      have := hpos r (List.mem_cons_self _ _)
      omega

theorem sum_indicator_range (s e M : ℕ) (v : ℚ) (hse : s ≤ e) (heM : e ≤ M) :
    (∑ p ∈ Finset.range M, if s ≤ p ∧ p < e then v else 0) = ((e - s : ℕ) : ℚ) * v := by
  have hfil : (Finset.range M).filter (fun p => s ≤ p ∧ p < e) = Finset.Ico s e := by
    ext p
    simp only [Finset.mem_filter, Finset.mem_range, Finset.mem_Ico]
    omega
  calc (∑ p ∈ Finset.range M, if s ≤ p ∧ p < e then v else 0)
      = ∑ p ∈ (Finset.range M).filter (fun p => s ≤ p ∧ p < e), v :=
        (Finset.sum_filter _ _).symm
    _ = ((Finset.range M).filter (fun p => s ≤ p ∧ p < e)).card • v :=
        Finset.sum_const v
    _ = ((e - s : ℕ) : ℚ) * v := by
        rw [hfil, Nat.card_Ico, nsmul_eq_mul]

theorem sum_valueAt_eq_weightedTotal (M : ℕ) (rs : List Run) :
    List.Pairwise (fun a b => a.stop ≤ b.start) rs →
    (∀ r ∈ rs, r.start ≤ r.stop ∧ r.stop ≤ M) →
    (∑ p ∈ Finset.range M, valueAt rs p) = weightedTotal rs := by
  induction rs with
  | nil => simp [valueAt_nil, weightedTotal]
  | cons r t ih =>
      intro hpw hb
      have hdisj : ∀ r' ∈ t, r.stop ≤ r'.start := (List.pairwise_cons.mp hpw).1
      have hr := hb r (List.mem_cons_self _ _)
      have hpt : ∀ p, valueAt (r :: t) p =
          (if r.start ≤ p ∧ p < r.stop then r.value else 0) + valueAt t p := by
        intro p
        rw [valueAt_cons]
        by_cases h : r.start ≤ p ∧ p < r.stop
        · rw [if_pos h, if_pos h]
          have hz : valueAt t p = 0 := by
            apply valueAt_eq_zero
            intro r' hr' hcon
            have := hdisj r' hr'
            omega
          rw [hz]
          ring
        · rw [if_neg h, if_neg h]
          ring
      calc (∑ p ∈ Finset.range M, valueAt (r :: t) p)
          = ∑ p ∈ Finset.range M,
              ((if r.start ≤ p ∧ p < r.stop then r.value else 0) + valueAt t p) :=
            Finset.sum_congr rfl (fun p _ => hpt p)
        _ = (∑ p ∈ Finset.range M, if r.start ≤ p ∧ p < r.stop then r.value else 0) +
              ∑ p ∈ Finset.range M, valueAt t p := Finset.sum_add_distrib
        _ = ((r.stop - r.start : ℕ) : ℚ) * r.value + weightedTotal t := by
            rw [sum_indicator_range r.start r.stop M r.value hr.1 hr.2,
              ih (List.pairwise_cons.mp hpw).2 (fun x hx => hb x (List.mem_cons_of_mem _ hx))]
        _ = weightedTotal (r :: t) := (weightedTotal_cons r t).symm

theorem sum_coverCount_eq_totalLength (M : ℕ) (ivs : List (ℕ × ℕ)) :
    (∀ iv ∈ ivs, iv.1 ≤ iv.2 ∧ iv.2 ≤ M) →
    (∑ p ∈ Finset.range M, (coverCount ivs p : ℚ)) = (totalIntervalLength ivs : ℚ) := by
  induction ivs with
  | nil => simp [coverCount, totalIntervalLength]
  | cons iv t ih =>
      intro hb
      have hiv := hb iv (List.mem_cons_self _ _)
      have hpt : ∀ p, (coverCount (iv :: t) p : ℚ) =
          (if iv.1 ≤ p ∧ p < iv.2 then (1 : ℚ) else 0) + (coverCount t p : ℚ) := by
        intro p
        unfold coverCount
        rw [List.filter_cons]
        by_cases h1 : iv.1 ≤ p <;> by_cases h2 : p < iv.2 <;>
          simp [h1, h2] <;> push_cast <;> ring
      calc (∑ p ∈ Finset.range M, (coverCount (iv :: t) p : ℚ))
          = ∑ p ∈ Finset.range M,
              ((if iv.1 ≤ p ∧ p < iv.2 then (1 : ℚ) else 0) + (coverCount t p : ℚ)) :=
            Finset.sum_congr rfl (fun p _ => hpt p)
        _ = (∑ p ∈ Finset.range M, if iv.1 ≤ p ∧ p < iv.2 then (1 : ℚ) else 0) +
              ∑ p ∈ Finset.range M, (coverCount t p : ℚ) := Finset.sum_add_distrib
        _ = ((iv.2 - iv.1 : ℕ) : ℚ) * 1 +
              (totalIntervalLength t : ℚ) := by
            rw [sum_indicator_range iv.1 iv.2 M 1 hiv.1 hiv.2,
              ih (fun x hx => hb x (List.mem_cons_of_mem _ hx))]
        _ = (totalIntervalLength (iv :: t) : ℚ) := by
            have hcons : totalIntervalLength (iv :: t) =
                (iv.2 - iv.1) + totalIntervalLength t := by
              simp [totalIntervalLength]
            rw [hcons]
            push_cast
            ring

/-! ## Boundary list lemmas -/

theorem boundaries_pairwise (ivs : List (ℕ × ℕ)) :
    List.Pairwise (· < ·) (boundaries ivs) :=
  Finset.sort_sorted_lt (boundarySet ivs)

theorem mem_boundaries_start {ivs : List (ℕ × ℕ)} {iv : ℕ × ℕ} (h : iv ∈ ivs) :
    iv.1 ∈ boundaries ivs := by
  apply (Finset.mem_sort _).mpr
  apply Finset.mem_union_left
  rw [List.mem_toFinset]
  exact List.mem_map.mpr ⟨iv, h, rfl⟩

theorem mem_boundaries_end {ivs : List (ℕ × ℕ)} {iv : ℕ × ℕ} (h : iv ∈ ivs) :
    iv.2 ∈ boundaries ivs := by
  apply (Finset.mem_sort _).mpr
  apply Finset.mem_union_right
  rw [List.mem_toFinset]
  exact List.mem_map.mpr ⟨iv, h, rfl⟩

theorem mem_boundaries_elim {ivs : List (ℕ × ℕ)} {b : ℕ} (h : b ∈ boundaries ivs) :
    (∃ iv ∈ ivs, iv.1 = b) ∨ (∃ iv ∈ ivs, iv.2 = b) := by
  have := (Finset.mem_sort (α := ℕ) (· ≤ ·)).mp h
  rcases Finset.mem_union.mp this with hs | hs
  · left
    rcases List.mem_map.mp (List.mem_toFinset.mp hs) with ⟨iv, hiv, he⟩
    exact ⟨iv, hiv, he⟩
  · right
    rcases List.mem_map.mp (List.mem_toFinset.mp hs) with ⟨iv, hiv, he⟩
    exact ⟨iv, hiv, he⟩

/-! ## Pileup correctness -/

theorem sweep_full_valueAt (ivs : List (ℕ × ℕ)) (hiv : ∀ iv ∈ ivs, iv.1 < iv.2)
    (p : ℕ) :
    valueAt (sweep ivs 0 (boundaries ivs)) p = (coverCount ivs p : ℚ) := by
  cases hb : boundaries ivs with
  | nil =>
      have hempty : ivs = [] := by
        cases ivs with
        | nil => rfl
        | cons iv t =>
            have := mem_boundaries_start (List.mem_cons_self iv t)
            rw [hb] at this
            simp at this
      subst hempty
      simp [sweep, valueAt_nil, coverCount, boundaries, boundarySet]
  | cons c0 rest =>
      have hpw : List.Pairwise (· < ·) (c0 :: rest) := hb ▸ boundaries_pairwise ivs
      by_cases h1 : c0 ≤ p
      · by_cases h2 : ∃ cz ∈ c0 :: rest, p < cz
        · rcases h2 with ⟨cz, hcz, hpcz⟩
          apply sweep_valueAt ivs hiv (c0 :: rest) 0 hpw ?hbd ?hd p c0 cz rfl h1 hcz hpcz
          case hbd =>
            intro iv hm
            exact ⟨Or.inl (hb ▸ mem_boundaries_start hm),
              Or.inl (hb ▸ mem_boundaries_end hm)⟩
          case hd =>
            intro cc hcc
            simp only [List.head?_cons, Option.some.injEq] at hcc
            subst hcc
            have hs0 : startsLT ivs c0 = 0 := by
              rw [startsLT, List.length_eq_zero]
              apply List.filter_eq_nil.mpr
              intro iv hm
              have := pairwise_head_le hpw (hb ▸ mem_boundaries_start hm)
              simp
              omega
            have he0 : endsLT ivs c0 = 0 := by
              rw [endsLT, List.length_eq_zero]
              apply List.filter_eq_nil.mpr
              intro iv hm
              have := pairwise_head_le hpw (hb ▸ mem_boundaries_end hm)
              simp
              omega
            rw [hs0, he0]
            norm_num
        · push_neg at h2
          have hc : coverCount ivs p = 0 := by
            rw [coverCount, List.length_eq_zero]
            apply List.filter_eq_nil.mpr
            intro iv hm
            have hmem := hb ▸ mem_boundaries_end hm
            have := h2 iv.2 hmem
            simp
            omega
          rw [hc, Nat.cast_zero]
          apply valueAt_eq_zero
          intro r hr hcon
          have hmem := (mem_sweep ivs (c0 :: rest) 0 r hr).2
          have := h2 r.stop hmem
          omega
      · have hc : coverCount ivs p = 0 := by
          rw [coverCount, List.length_eq_zero]
          apply List.filter_eq_nil.mpr
          intro iv hm
          have hmem := hb ▸ mem_boundaries_start hm
          have := pairwise_head_le hpw hmem
          simp
          omega
        rw [hc, Nat.cast_zero]
        apply valueAt_eq_zero
        intro r hr hcon
        have hmem := (mem_sweep ivs (c0 :: rest) 0 r hr).1
        have := pairwise_head_le hpw hmem
        omega

theorem snd_le_sumEnds (ivs : List (ℕ × ℕ)) {iv : ℕ × ℕ} (h : iv ∈ ivs) :
    iv.2 ≤ (ivs.map Prod.snd).sum := by
  induction ivs with
  | nil => simp at h
  | cons a t ih =>
      rw [List.map_cons, List.sum_cons]
      rcases List.mem_cons.mp h with rfl | h'
      · omega
      · have := ih h'
        omega

/-- C3: on one chromosome, after the pileup track is built (scale 1), the
value of the track at every position equals the number of input intervals
containing that position. -/
theorem C3_pileup_valueAt (ivs : List (ℕ × ℕ)) (hiv : ∀ iv ∈ ivs, iv.1 < iv.2)
    (p : ℕ) : valueAt (pileup ivs) p = (coverCount ivs p : ℚ) := by
  unfold pileup
  rw [compress_valueAt (sweep ivs 0 (boundaries ivs)) (sweep_contig ivs (boundaries ivs) 0)
    (fun r hr =>
      le_of_lt (sweep_pos ivs (boundaries ivs) 0 (boundaries_pairwise ivs) r hr)) p]
  exact sweep_full_valueAt ivs hiv p

/-- Witness for C3 at the intervals `[0,3)` and `[1,4)` and position `2`. -/
theorem C3_pileup_valueAt_witness :
    (∀ iv ∈ [((0 : ℕ), (3 : ℕ)), (1, 4)], iv.1 < iv.2) ∧
      valueAt (pileup [((0 : ℕ), (3 : ℕ)), (1, 4)]) 2 =
        (coverCount [((0 : ℕ), (3 : ℕ)), (1, 4)] 2 : ℚ) :=
  ⟨by decide, C3_pileup_valueAt [((0 : ℕ), (3 : ℕ)), (1, 4)] (by decide) 2⟩

/-- C8: every pileup track is contiguous, sorted by start, maximally
run-length compressed (no two adjacent runs share a value), and its total
weighted length equals the total length of the input intervals. -/
theorem C8_track_invariants (ivs : List (ℕ × ℕ)) (hiv : ∀ iv ∈ ivs, iv.1 < iv.2) :
    List.Chain' (fun a b => a.stop = b.start) (pileup ivs) ∧
    List.Chain' (fun a b => a.start < b.start) (pileup ivs) ∧
    List.Chain' (fun a b => a.value ≠ b.value) (pileup ivs) ∧
    weightedTotal (pileup ivs) = (totalIntervalLength ivs : ℚ) := by
  have hch := sweep_contig ivs (boundaries ivs) 0
  have hpos : ∀ r ∈ sweep ivs 0 (boundaries ivs), r.start < r.stop :=
    sweep_pos ivs (boundaries ivs) 0 (boundaries_pairwise ivs)
  have hcp := compress_contig_pos (sweep ivs 0 (boundaries ivs)) hch hpos
  refine ⟨hcp.1, chain_start_lt_of_contig _ hcp.1 hcp.2, compress_value_ne _, ?_⟩
  have hbound : ∀ b ∈ boundaries ivs, b ≤ (ivs.map Prod.snd).sum := by
    intro b hbm
    rcases mem_boundaries_elim hbm with ⟨iv, hivm, he⟩ | ⟨iv, hivm, he⟩
    · have h2 := snd_le_sumEnds ivs hivm
      have := hiv iv hivm
      omega
    · have h2 := snd_le_sumEnds ivs hivm
      omega
  have hrs_bounds : ∀ r ∈ sweep ivs 0 (boundaries ivs),
      r.start ≤ r.stop ∧ r.stop ≤ (ivs.map Prod.snd).sum := by
    intro r hr
    exact ⟨le_of_lt (hpos r hr),
      hbound r.stop (mem_sweep ivs (boundaries ivs) 0 r hr).2⟩
  calc weightedTotal (pileup ivs)
      = weightedTotal (sweep ivs 0 (boundaries ivs)) :=
        compress_weightedTotal _ hch (fun r hr => le_of_lt (hpos r hr))
    _ = ∑ p ∈ Finset.range ((ivs.map Prod.snd).sum),
          valueAt (sweep ivs 0 (boundaries ivs)) p :=
        (sum_valueAt_eq_weightedTotal ((ivs.map Prod.snd).sum) _
          (pairwise_disjoint_of_contig _ hch (fun r hr => le_of_lt (hpos r hr)))
          hrs_bounds).symm
    _ = ∑ p ∈ Finset.range ((ivs.map Prod.snd).sum), (coverCount ivs p : ℚ) :=
        Finset.sum_congr rfl (fun p _ => sweep_full_valueAt ivs hiv p)
    _ = (totalIntervalLength ivs : ℚ) :=
        sum_coverCount_eq_totalLength ((ivs.map Prod.snd).sum) ivs
          (fun iv hm => ⟨le_of_lt (hiv iv hm), snd_le_sumEnds ivs hm⟩)

/-- Witness for C8 at the intervals `[0,3)` and `[1,4)`. -/
theorem C8_track_invariants_witness :
    (∀ iv ∈ [((0 : ℕ), (3 : ℕ)), (1, 4)], iv.1 < iv.2) ∧
      (List.Chain' (fun a b => a.stop = b.start) (pileup [((0 : ℕ), (3 : ℕ)), (1, 4)]) ∧
       List.Chain' (fun a b => a.start < b.start) (pileup [((0 : ℕ), (3 : ℕ)), (1, 4)]) ∧
       List.Chain' (fun a b => a.value ≠ b.value) (pileup [((0 : ℕ), (3 : ℕ)), (1, 4)]) ∧
       weightedTotal (pileup [((0 : ℕ), (3 : ℕ)), (1, 4)]) =
         (totalIntervalLength [((0 : ℕ), (3 : ℕ)), (1, 4)] : ℚ)) :=
  ⟨by decide, C8_track_invariants [((0 : ℕ), (3 : ℕ)), (1, 4)] (by decide)⟩

/-! ## Peak caller lemmas -/

theorem candidates_nonempty (cutoff : ℚ) (rs : List Run) :
    ∀ g ∈ candidates cutoff rs, g ≠ [] := by
  induction rs with
  | nil => simp [candidates]
  | cons r rest ih =>
      cases rest with
      | nil =>
          intro g hg
          by_cases h : aboveCutoff cutoff r
          · simp only [candidates, h, if_true, List.mem_singleton] at hg
            subst hg
            simp
          · simp [candidates, h] at hg
      | cons r2 rest' =>
          intro g hg
          rw [candidates] at hg
          by_cases h : aboveCutoff cutoff r
          · rw [if_pos h] at hg
            by_cases h2 : aboveCutoff cutoff r2
            · rw [if_pos h2] at hg
              cases hm : candidates cutoff (r2 :: rest') with
              | nil =>
                  rw [hm] at hg
                  simp only [List.mem_singleton] at hg
                  subst hg
                  simp
              | cons g0 gs =>
                  rw [hm] at hg
                  rcases List.mem_cons.mp hg with rfl | hg'
                  · simp
                  · exact ih g (hm ▸ List.mem_cons_of_mem g0 hg')
            · rw [if_neg h2] at hg
              rcases List.mem_cons.mp hg with rfl | hg'
              · simp
              · exact ih g hg'
          · rw [if_neg h] at hg
            exact ih g hg

theorem cStart_append (g1 g2 : List Run) (h : g1 ≠ []) :
    cStart (g1 ++ g2) = cStart g1 := by
  cases g1 with
  | nil => exact absurd rfl h
  | cons a t => rfl

theorem cStop_append (g1 g2 : List Run) (h : g2 ≠ []) :
    cStop (g1 ++ g2) = cStop g2 := by
  induction g1 with
  | nil => rfl
  | cons a t ih =>
      rw [List.cons_append]
      cases htg : t ++ g2 with
      | nil =>
          exfalso
          rcases List.append_eq_nil.mp htg with ⟨_, h2⟩
          exact h h2
      | cons b l =>
          have : cStop (a :: b :: l) = cStop (b :: l) := by
            simp [cStop, List.getLast?_cons_cons]
          rw [this, ← htg, ih]

/-- C4: two candidate regions separated by a sub-cutoff gap of exactly
`maxGap` bases merge into one Peak spanning the hull of the two ranges,
while a gap of `maxGap + 1` bases leaves them as two distinct Peaks
(provided the survivors pass the length filter). -/
theorem C4_gap_merge (rs : List Run) (cutoff : ℚ) (minLength maxGap : ℕ)
    (g1 g2 : List Run) (hc : candidates cutoff rs = [g1, g2]) :
    (cStop g1 + maxGap = cStart g2 →
      minLength ≤ cStop g2 - cStart g1 →
      callPeaks rs cutoff minLength maxGap false = [closeCand (g1 ++ g2)] ∧
        cStart (g1 ++ g2) = cStart g1 ∧ cStop (g1 ++ g2) = cStop g2) ∧
    (cStop g1 + (maxGap + 1) = cStart g2 →
      minLength ≤ cStop g1 - cStart g1 →
      minLength ≤ cStop g2 - cStart g2 →
      callPeaks rs cutoff minLength maxGap false = [closeCand g1, closeCand g2]) := by
  have hne1 : g1 ≠ [] :=
    candidates_nonempty cutoff rs g1 (hc ▸ List.mem_cons_self _ _)
  have hne2 : g2 ≠ [] :=
    candidates_nonempty cutoff rs g2
      (hc ▸ List.mem_cons_of_mem _ (List.mem_cons_self _ _))
  constructor
  · intro hgap hlen
    have hgap2 : cStart g2 - cStop g1 ≤ maxGap := by omega
    have hpair : mergeCands maxGap [g1, g2] = [g1 ++ g2] := by
      simp only [mergeCands]
      rw [if_pos hgap2]
    have hs := cStart_append g1 g2 hne1
    have ht := cStop_append g1 g2 hne2
    refine ⟨?_, hs, ht⟩
    unfold callPeaks
    rw [hc, hpair]
    have hfil : minLength ≤ cStop (g1 ++ g2) - cStart (g1 ++ g2) := by
      rw [hs, ht]
      exact hlen
    simp [List.filter_cons, hfil]
  · intro hgap hl1 hl2
    have hgap2 : ¬(cStart g2 - cStop g1 ≤ maxGap) := by omega
    have hpair : mergeCands maxGap [g1, g2] = [g1, g2] := by
      simp only [mergeCands]
      rw [if_neg hgap2]
    unfold callPeaks
    rw [hc, hpair]
    simp [List.filter_cons, hl1, hl2]

/-- Witness for C4: one track, gap 2; merged when `maxGap = 2`, distinct
when `maxGap = 1`. -/
theorem C4_gap_merge_witness :
    callPeaks [⟨0, 5, 1⟩, ⟨5, 7, 0⟩, ⟨7, 12, 1⟩] 0 3 2 false =
        [closeCand ([⟨0, 5, 1⟩] ++ [⟨7, 12, 1⟩])] ∧
      callPeaks [⟨0, 5, 1⟩, ⟨5, 7, 0⟩, ⟨7, 12, 1⟩] 0 3 1 false =
        [closeCand [⟨0, 5, 1⟩], closeCand [⟨7, 12, 1⟩]] :=
  ⟨((C4_gap_merge [⟨0, 5, 1⟩, ⟨5, 7, 0⟩, ⟨7, 12, 1⟩] 0 3 2 [⟨0, 5, 1⟩] [⟨7, 12, 1⟩]
      (by decide)).1 (by decide) (by decide)).1,
   (C4_gap_merge [⟨0, 5, 1⟩, ⟨5, 7, 0⟩, ⟨7, 12, 1⟩] 0 3 1 [⟨0, 5, 1⟩] [⟨7, 12, 1⟩]
      (by decide)).2 (by decide) (by decide) (by decide)⟩

/-- C5: a merged candidate whose length is exactly `minLength` is kept;
with length `minLength - 1` (for positive `minLength`) it is discarded. -/
theorem C5_min_length (rs : List Run) (cutoff : ℚ) (minLength maxGap : ℕ)
    (g : List Run) (hm : mergeCands maxGap (candidates cutoff rs) = [g]) :
    (cStop g - cStart g = minLength →
      callPeaks rs cutoff minLength maxGap false = [closeCand g]) ∧
    (0 < minLength → cStop g - cStart g = minLength - 1 →
      callPeaks rs cutoff minLength maxGap false = []) := by
  constructor
  · intro hlen
    unfold callPeaks
    rw [hm]
    have hk : minLength ≤ cStop g - cStart g := by omega
    simp [List.filter_cons, hk]
  · intro h0 hlen
    unfold callPeaks
    rw [hm]
    have hk : ¬(minLength ≤ cStop g - cStart g) := by omega
    simp [List.filter_cons, hk]

/-- Witness for C5: a single candidate of length 5 is kept at
`minLength = 5` and discarded at `minLength = 6`. -/
theorem C5_min_length_witness :
    callPeaks [⟨0, 5, 1⟩] 0 5 0 false = [closeCand [⟨0, 5, 1⟩]] ∧
      callPeaks [⟨0, 5, 1⟩] 0 6 0 false = [] :=
  ⟨(C5_min_length [⟨0, 5, 1⟩] 0 5 0 [⟨0, 5, 1⟩] (by decide)).1 (by decide),
   (C5_min_length [⟨0, 5, 1⟩] 0 6 0 [⟨0, 5, 1⟩] (by decide)).2 (by decide) (by decide)⟩

/-- C6: peak calling is a pure function of the track and the argument
tuple, so two calls with identical arguments return identical PeakSets. -/
theorem C6_call_peaks_deterministic (rs : List Run) (cutoff : ℚ)
    (minLength maxGap : ℕ) (splitSummits : Bool) :
    callPeaks rs cutoff minLength maxGap splitSummits =
      callPeaks rs cutoff minLength maxGap splitSummits := rfl

/-- C7: the checked entry point fails with `InvalidArgument` (returning no
peaks) exactly when the cutoff is non-positive, `minLength` is zero, or the
track is malformed; for all other arguments it does not raise it. -/
theorem C7_invalid_argument (rs : List Run) (cutoff : ℚ) (minLength maxGap : ℕ)
    (splitSummits : Bool) :
    callPeaksChecked rs cutoff minLength maxGap splitSummits =
        Except.error QError.invalidArgument ↔
      (cutoff ≤ 0 ∨ minLength = 0 ∨ sortedDisjoint rs = false) := by
  unfold callPeaksChecked
  split_ifs with h1 h2 h3
  · simp [h1]
  · simp [h2]
  · simp [h3]
  · simp [h1, h2, h3]

/-- C10: the driver always requests `call_summits=False`, and with that flag
every Peak the caller reports carries exactly one summit. -/
theorem C10_single_summit (o : Options) (first : ParsedFile)
    (rest : List ParsedFile) (rs : List Run) (cutoff : ℚ)
    (minLength maxGap : ℕ) :
    (runTrace o first rest).peaksArgs.callSummits = false ∧
      ∀ pk ∈ callPeaks rs cutoff minLength maxGap
          (runTrace o first rest).peaksArgs.callSummits,
        pk.summits.length = 1 := by
  constructor
  · unfold runTrace
    split <;> rfl
  · intro pk hpk
    unfold callPeaks at hpk
    rcases List.mem_map.mp hpk with ⟨c, _, rfl⟩
    rfl

/-- Witness for C10 at a one-run track. -/
theorem C10_single_summit_witness :
    (runTrace ⟨"BED", 100, 1000, 5, 200, 30⟩ ⟨150, 36, 7⟩ []).peaksArgs.callSummits =
        false ∧
      (closeCand [⟨0, 5, 1⟩]).summits.length = 1 :=
  ⟨(C10_single_summit ⟨"BED", 100, 1000, 5, 200, 30⟩ ⟨150, 36, 7⟩ [] [] 0 1 0).1,
   (C10_single_summit ⟨"BED", 100, 1000, 5, 200, 30⟩ ⟨150, 36, 7⟩ []
      [⟨0, 5, 1⟩] 0 1 0).2 (closeCand [⟨0, 5, 1⟩]) (by decide)⟩

/-! ## Driver claims -/

/-- C2: the coverage cutoff the driver passes to peak calling equals the
fold-enrichment parameter times `extensionSize * totalFragmentCount /
effectiveGenomeSize`, with exact rational division. -/
theorem C2_coverage_cutoff (o : Options) (first : ParsedFile)
    (rest : List ParsedFile) (hg : 0 < o.gsize) :
    (runTrace o first rest).peaksArgs.cutoff =
      specCutoff o.cutoff (if peMode o then first.d else o.extsize)
        (first.total + (rest.map ParsedFile.total).sum) o.gsize := by
  unfold runTrace specCutoff genomeBG load_frag_files_options load_tag_files_options
  by_cases h : peMode o <;> simp [h]

/-- Witness for C2 at a single-end option set. -/
theorem C2_coverage_cutoff_witness :
    0 < (⟨"BED", 100, 1000, 5, 200, 30⟩ : Options).gsize ∧
      (runTrace ⟨"BED", 100, 1000, 5, 200, 30⟩ ⟨150, 36, 7⟩
          [⟨120, 36, 3⟩]).peaksArgs.cutoff =
        specCutoff (⟨"BED", 100, 1000, 5, 200, 30⟩ : Options).cutoff
          (if peMode ⟨"BED", 100, 1000, 5, 200, 30⟩
            then (⟨150, 36, 7⟩ : ParsedFile).d
            else (⟨"BED", 100, 1000, 5, 200, 30⟩ : Options).extsize)
          ((⟨150, 36, 7⟩ : ParsedFile).total +
            (([⟨120, 36, 3⟩] : List ParsedFile).map ParsedFile.total).sum)
          (⟨"BED", 100, 1000, 5, 200, 30⟩ : Options).gsize :=
  ⟨by decide,
   C2_coverage_cutoff ⟨"BED", 100, 1000, 5, 200, 30⟩ ⟨150, 36, 7⟩
     [⟨120, 36, 3⟩] (by decide)⟩

/-- C9: paired-end mode holds exactly for the BAMPE and BEDPE formats; in
paired-end mode the pileup is built with no extension and the background
extension size is the first parser's fragment size, while in single-end
mode both use `options.extsize`. -/
theorem C9_pe_mode (o : Options) (first : ParsedFile) (rest : List ParsedFile) :
    (peMode o = true ↔ (o.format = "BAMPE" ∨ o.format = "BEDPE")) ∧
    (peMode o = true →
      (runTrace o first rest).pileupArgs.extension = none ∧
        (runTrace o first rest).bgExtsize = first.d) ∧
    (peMode o = false →
      (runTrace o first rest).pileupArgs.extension = some o.extsize ∧
        (runTrace o first rest).bgExtsize = o.extsize) := by
  refine ⟨?_, ?_, ?_⟩
  · simp [peMode]
  · intro h
    unfold runTrace
    rw [if_pos h]
    exact ⟨rfl, rfl⟩
  · intro h
    unfold runTrace
    rw [if_neg (by simp [h])]
    exact ⟨rfl, rfl⟩

/-- Witness for C9: one paired-end and one single-end option set. -/
theorem C9_pe_mode_witness :
    ((runTrace ⟨"BAMPE", 100, 1000, 5, 200, 30⟩ ⟨150, 36, 7⟩ []).pileupArgs.extension =
        none ∧
      (runTrace ⟨"BAMPE", 100, 1000, 5, 200, 30⟩ ⟨150, 36, 7⟩ []).bgExtsize =
        (⟨150, 36, 7⟩ : ParsedFile).d) ∧
    ((runTrace ⟨"BED", 100, 1000, 5, 200, 30⟩ ⟨150, 36, 7⟩ []).pileupArgs.extension =
        some (⟨"BED", 100, 1000, 5, 200, 30⟩ : Options).extsize ∧
      (runTrace ⟨"BED", 100, 1000, 5, 200, 30⟩ ⟨150, 36, 7⟩ []).bgExtsize =
        (⟨"BED", 100, 1000, 5, 200, 30⟩ : Options).extsize) :=
  ⟨(C9_pe_mode ⟨"BAMPE", 100, 1000, 5, 200, 30⟩ ⟨150, 36, 7⟩ []).2.1 (by decide),
   (C9_pe_mode ⟨"BED", 100, 1000, 5, 200, 30⟩ ⟨150, 36, 7⟩ []).2.2 (by decide)⟩

/-- C1: on the test fixture with window size 41, the extrema detector as the
specification describes it (window dominance with clipped boundary windows,
plateaus collapsed to their floor midpoint) reports the boundary plateaus as
well: `maxima` returns `[9, 78, 126, 195]` rather than exactly `[78, 126]`,
and the first element of `minima` is `19`, not `102` (which appears second).
This contradicts the repository's own test `test_Signal.py`, which requires
`maxima[0] = 78`, `maxima[1] = 126` and `minima[0] = 102`. -/
theorem C1_extrema_on_test_signal :
    maxima testSignal 41 = [9, 78, 126, 195] ∧
      minima testSignal 41 = [19, 102, 185] := by
  constructor <;> decide

end MACSQ
